import Mathlib

/-!
# Shallow embedding of the FDRL_deep_sets traffic-signal control core

This file embeds, over `ℚ`, the parts of `FDRL_deep_sets` (junction.py,
models.py, fdrl_server.py) that the verified properties talk about:

* `DQN_Agent` replay-buffer state and the guards of `store_transition` /
  `train_step` (models.py).  The body of `train_step` past its
  buffer-length guard performs stochastic mini-batch backpropagation on a
  torch network; it is abstracted as an explicit function parameter
  (`body`), since every property proved here concerns only the guard.
* `FDRLServer.aggregate` (fdrl_server.py): median / std outlier scoring,
  factor normalization and the weighted sum, per parameter tensor.
* `JunctionAgent` (junction.py): the phase state machine `step`, the
  safety overrides (starvation, max-green), `reset`, and the federated
  soft blend `update_weights`.

Python float literals (0.1, 0.3, 0.01, 1e-6, 1.5, 10.0, 100.0, 120.0, …)
are modelled as the exact rationals they denote; no property proved here
depends on the 2⁻⁵³-level rounding of the binary float values.
State dictionaries (torch `state_dict`) are modelled as `List (List ℚ)`:
outer index = parameter key in iteration order, inner list = the
flattened tensor for that key.  The per-edge dictionary
`last_green_times` (keyed by the distinct sorted `unique_edges`) is
modelled as a list parallel to `unique_edges`.
TraCI commands are assumed to succeed (the code catches and logs TraCI
exceptions); the commands issued are returned explicitly.
-/

namespace Vegha

/-- A replay-buffer entry, models.py transition tuple
`(cands, ctx, action_idx, reward, next_cands, next_ctx, done)`. -/
structure Transition where
  cands : List (List ℚ)
  ctx : List ℚ
  act : Nat
  reward : ℚ
  next_cands : List (List ℚ)
  next_ctx : List ℚ
  done : Bool
deriving DecidableEq

/-- The state of `DQN_Agent` (models.py) relevant to the verified
properties: live network weights, target network weights, exploration
rate, replay buffer, capacity/batch constants and the train-step
counter. -/
structure Brain where
  weights : List (List ℚ)
  target : List (List ℚ)
  epsilon : ℚ
  replay_buffer : List Transition
  buffer_capacity : Nat
  batch_size : Nat
  train_steps : Nat
deriving DecidableEq

/-- models.py `DQN_Agent.store_transition`:
`if len(self.replay_buffer) >= self.buffer_capacity: self.replay_buffer.pop(0)`
then `append`.  (`pop(0)` on an empty list would raise in Python; the
configured capacity is positive, and the theorems below assume
`1 ≤ buffer_capacity`.) -/
def store_transition (b : Brain) (t : Transition) : Brain :=
  if b.buffer_capacity ≤ b.replay_buffer.length then
    { b with replay_buffer := b.replay_buffer.drop 1 ++ [t] }
  else
    { b with replay_buffer := b.replay_buffer ++ [t] }

/-- models.py `DQN_Agent.train_step`:
`if len(self.replay_buffer) < self.batch_size: return 0.0`.
The mini-batch backpropagation after the guard (random sampling, torch
gradients, target-network sync, epsilon decay) is abstracted as the
explicit parameter `body`; the verified property concerns the guard
only. -/
def train_step (body : Brain → Brain × ℚ) (b : Brain) : Brain × ℚ :=
  if b.replay_buffer.length < b.batch_size then (b, 0) else body b

/-! ## FDRLServer (fdrl_server.py) -/

/-- Server state: the global weight set and the round counter driving
the adaptive outlier threshold. -/
structure Server where
  global_weights : List (List ℚ)
  round_count : Nat
deriving DecidableEq

/-- Insert into a sorted list (ascending). -/
def insertSorted (x : ℚ) : List ℚ → List ℚ
  | [] => [x]
  | y :: ys => if x ≤ y then x :: y :: ys else y :: insertSorted x ys

/-- Insertion sort, ascending. -/
def sortQ : List ℚ → List ℚ
  | [] => []
  | x :: xs => insertSorted x (sortQ xs)

/-- `torch.median(stack, dim=0)` per element: for an even number of
values it returns the smaller of the two middle values, i.e. the element
at index `(n-1)/2` of the sorted list. -/
def lower_median (xs : List ℚ) : ℚ :=
  (sortQ xs).getD ((xs.length - 1) / 2) 0

/-- Arithmetic mean (used by `torch.std`). -/
def meanQ (xs : List ℚ) : ℚ := xs.sum / (xs.length : ℚ)

/-- The square of `torch.std(stack, dim=0)` per element (unbiased,
Bessel-corrected: divide by `n-1`).  For a single client `torch.std`
yields `0/0 = NaN` and every comparison against `NaN` is false; here the
division by zero yields `0` in `ℚ`, and the outlier test below evaluates
to false on the resulting threshold exactly as the float code does
(the single client's distance from the median is `0`). -/
def varU (xs : List ℚ) : ℚ :=
  ((xs.map (fun x => (x - meanQ xs) ^ 2)).sum) / ((xs.length : ℚ) - 1)

/-- fdrl_server.py outlier test per element:
`distance > 1.5 * (std + 1e-6)`.  To stay inside `ℚ` the test is stated
on the squared std `v = std²`: since `1.5 * sqrt v ≥ 0`, the float test
`d - 1.5e-6 > 1.5 * sqrt v` is equivalent to
`0 < d - 1.5e-6 ∧ (1.5)² * v < (d - 1.5e-6)²`. -/
def outlier_test (d v : ℚ) : Bool :=
  decide (0 < d - 3 / 2 * (1 / 1000000)) &&
  decide ((3 / 2) ^ 2 * v < (d - 3 / 2 * (1 / 1000000)) ^ 2)

/-- One client's weighting factor in `FDRLServer.aggregate`: count the
elements whose distance to the per-element median exceeds the outlier
test, and down-weight the client to `0.5` if the outlier ratio exceeds
the threshold, else give it full weight `1.0`. -/
def outlier_factor (threshold : ℚ) (numel : Nat) (stack : List (List ℚ))
    (cw : List ℚ) : ℚ :=
  if threshold <
      ((((List.range numel).filter (fun j =>
        outlier_test (|cw.getD j 0 - lower_median (stack.map (fun c => c.getD j 0))|)
          (varU (stack.map (fun c => c.getD j 0))))).length : ℚ) / (numel : ℚ))
  then (1 : ℚ) / 2 else 1

/-- The per-key body of `FDRLServer.aggregate`: stack the clients'
tensors for one key, compute each client's factor from the per-element
median/std outlier test, normalize the factors to sum to one, and
return the elementwise weighted sum. -/
def aggregate_key (threshold : ℚ) (stack : List (List ℚ)) : List ℚ :=
  let numel := (stack.headD []).length
  let factors := stack.map (outlier_factor threshold numel stack)
  let total := factors.sum
  let normFactors := factors.map (fun f => f / total)
  (List.range numel).map (fun j =>
    (List.zipWith (fun f cw => f * cw.getD j 0) normFactors stack).sum)

/-- fdrl_server.py `FDRLServer.aggregate`.  Empty input returns the
current global set and leaves the server unchanged.  Otherwise the
adaptive threshold is `max(0.1, 0.3 - round_count * 0.01)`, each key of
the global weight set is merged by `aggregate_key`, the global set is
replaced and the round counter incremented.  (The Python code
initializes `new_weights` from a zeroed copy of the first client and
then overwrites every key of `self.global_weights`; with the clients and
the server holding the same keys — anything else raises `KeyError` —
this equals the map over the global keys used here.) -/
def aggregate (sv : Server) (client_weights_list : List (List (List ℚ))) :
    List (List ℚ) × Server :=
  if client_weights_list.isEmpty then (sv.global_weights, sv)
  else
    let threshold := max ((1 : ℚ) / 10) (3 / 10 - (sv.round_count : ℚ) * (1 / 100))
    let newW := (List.range sv.global_weights.length).map (fun k =>
      aggregate_key threshold (client_weights_list.map (fun c => c.getD k [])))
    (newW, { global_weights := newW, round_count := sv.round_count + 1 })

/-! ## JunctionAgent (junction.py) -/

/-- A pending observation `(candidate_feats, context_feats, action_idx)`
stored by the controller between decision points. -/
structure Obs where
  cands : List (List ℚ)
  ctx : List ℚ
  act : Nat
deriving DecidableEq

/-- A command issued to the simulator through TraCI. -/
inductive Cmd where
  | setState (tls_id : String) (phase : String)
  | subscribeLanes
deriving DecidableEq

/-- What the simulator-reading utilities return at one moment:
the aggregated context features of all controlled lanes, the aggregated
features of each edge's lanes (parallel to `unique_edges`), and the
reward `utils.compute_reward` computes from the lane statistics. -/
structure EnvObs where
  ctx_feats : List ℚ
  edge_feats : List (List ℚ)
  reward : ℚ

/-- The abstract collaborators of one `JunctionAgent.step` call:
the learned action selector `brain.predict(cands, ctx, explore)`
(a torch network plus epsilon-greedy randomness), the abstracted
`train_step` body, and the simulator readings as a function of
simulation time. -/
structure Params where
  policy : List (List ℚ) → List ℚ → Bool → Nat
  trainBody : Brain → Brain × ℚ
  env : ℚ → EnvObs

/-- The mutable state of one `JunctionAgent` (junction.py): the phase
state machine fields, the pending observation, the step counter and the
owned `DQN_Agent`.  `unique_edges` is the sorted list of distinct
controlled incoming edges, `green_states` the precomputed green phase
string for each edge (parallel), `last_green_times` the per-edge
last-green timestamps (parallel; a dict keyed by the distinct edges in
the source). -/
structure JState where
  tls_id : String
  unique_edges : List String
  green_states : List String
  current_edge_idx : Nat
  current_state_str : String
  is_yellow : Bool
  yellow_steps_left : Int
  last_switch_time : ℚ
  last_decision_time : ℚ
  last_green_times : List ℚ
  last_observation : Option Obs
  step_counter : Nat
  train_frequency : Nat
  last_action_caused_switch : Bool
  brain : Brain
deriving DecidableEq

/-- junction.py `JunctionAgent._build_yellow`: every `G`/`g`/`y`
character becomes `y`, everything else `r`. -/
def build_yellow (s : String) : String :=
  String.mk (s.toList.map (fun c => if c = 'G' ∨ c = 'g' ∨ c = 'y' then 'y' else 'r'))

/-- The starvation loop of `JunctionAgent.step` (junction.py lines
169-177): iterate over the edge indices in order; at the first index
whose edge has not been green for more than `MAX_RED_TIME = 120` seconds
and which is not the currently green index, stop and return it
(`break`). -/
def find_starved (t : ℚ) (last_greens : List ℚ) (cur : Nat) : List Nat → Option Nat
  | [] => none
  | i :: rest =>
    if 120 < t - last_greens.getD i 0 ∧ i ≠ cur then some i
    else find_starved t last_greens cur rest

/-- The safety-override resolution of `JunctionAgent.step` (junction.py
lines 169-184) applied to the learned action: the starvation override
(`MAX_RED_TIME = 120`), then the max-green override
(`MAX_GREEN_TIME = 100`): if more than 100 seconds have passed since
`last_switch_time` and the action still selects the current index,
switch to the next index in cyclic order. -/
def resolve_action (edges : List String) (last_greens : List ℚ) (cur : Nat)
    (last_switch t : ℚ) (learned : Nat) : Nat :=
  let a1 := (find_starved t last_greens cur (List.range edges.length)).getD learned
  if 100 < t - last_switch ∧ a1 = cur then (cur + 1) % edges.length else a1

/-- junction.py `JunctionAgent.step`, called once per simulation step
with the current simulation time.  Returns the new state and the TraCI
commands issued (assumed to succeed).  Mirrors the source order:
empty-topology early return; yellow-phase countdown and commit; minimum
green (10 s) and minimum decision interval (1 s) guards; feature
gathering (per-edge features extended with normalized
time-since-last-green and the is-currently-green flag); reward for the
previous action with the 0.10 switching penalty; transition storage and
throttled training; action selection; safety overrides; observation
update; and execution (yellow entry on switch, else refresh of
`last_switch_time`). -/
def step (P : Params) (s : JState) (t : ℚ) (train : Bool) : JState × List Cmd :=
  if s.unique_edges.isEmpty then (s, [])
  else
    let s1 := { s with step_counter := s.step_counter + 1 }
    if s1.is_yellow then
      let ysl := s1.yellow_steps_left - 1
      if ysl ≤ 0 then
        let i := s1.current_edge_idx
        let newState := s1.green_states.getD i ""
        ({ s1 with
            is_yellow := false
            yellow_steps_left := ysl
            last_green_times := s1.last_green_times.set i t
            current_state_str := newState
            last_switch_time := t },
          [Cmd.setState s1.tls_id newState])
      else
        ({ s1 with yellow_steps_left := ysl }, [])
    else if t - s1.last_switch_time < 10 then (s1, [])
    else if t - s1.last_decision_time < 1 then (s1, [])
    else
      let s2 := { s1 with last_decision_time := t }
      let e := P.env t
      let cands := (List.range s2.unique_edges.length).map (fun i =>
        e.edge_feats.getD i [] ++
          [(t - s2.last_green_times.getD i 0) / 100,
            if i = s2.current_edge_idx then 1 else 0])
      let reward := e.reward - (if s2.last_action_caused_switch then 1 / 10 else 0)
      let brain1 :=
        match s2.last_observation, train with
        | some o, true =>
          let b := store_transition s2.brain
            ⟨o.cands, o.ctx, o.act, reward, cands, e.ctx_feats, false⟩
          if s2.step_counter % s2.train_frequency = 0 then (train_step P.trainBody b).1 else b
        | _, _ => s2.brain
      let learned := P.policy cands e.ctx_feats train
      let a := resolve_action s2.unique_edges s2.last_green_times s2.current_edge_idx
        s2.last_switch_time t learned
      let s3 := { s2 with brain := brain1, last_observation := some ⟨cands, e.ctx_feats, a⟩ }
      if a ≠ s3.current_edge_idx then
        ({ s3 with
            is_yellow := true
            yellow_steps_left := 3
            current_edge_idx := a
            last_action_caused_switch := true },
          [Cmd.setState s3.tls_id (build_yellow s3.current_state_str)])
      else
        ({ s3 with last_action_caused_switch := false, last_switch_time := t }, [])

/-- junction.py `JunctionAgent.reset`: zero the phase state machine
fields and the pending observation, re-apply the first edge's green
state when the junction has edges, and re-subscribe the lanes.
The source does not touch `last_green_times` and never touches
`self.brain`. -/
def reset (s : JState) : JState × List Cmd :=
  let s1 := { s with
    current_edge_idx := 0
    is_yellow := false
    yellow_steps_left := 0
    last_switch_time := 0
    last_decision_time := 0
    last_observation := none
    last_action_caused_switch := false }
  if s1.unique_edges.isEmpty then (s1, [Cmd.subscribeLanes])
  else
    let s2 := { s1 with current_state_str := s1.green_states.getD 0 "" }
    (s2, [Cmd.setState s2.tls_id s2.current_state_str, Cmd.subscribeLanes])

/-- junction.py `JunctionAgent.update_weights`: replace the live
network's weights with `alpha * local + (1 - alpha) * global`
elementwise (the target network is untouched). -/
def blend (alpha : ℚ) (localW globalW : List (List ℚ)) : List (List ℚ) :=
  List.zipWith (fun lt gt => List.zipWith (fun l g => alpha * l + (1 - alpha) * g) lt gt)
    localW globalW

/-- junction.py `JunctionAgent.update_weights` at the agent level:
`set_weights` replaces only the live network's parameters. -/
def update_weights (s : JState) (global_weights : List (List ℚ)) (alpha : ℚ) : JState :=
  { s with brain := { s.brain with weights := blend alpha s.brain.weights global_weights } }

/-- Drive `step` over a list of simulation times, as `run_simulation`
(main.py) calls each agent once per simulation step. -/
def run_steps (P : Params) (train : Bool) : JState → List ℚ → JState
  | s, [] => s
  | s, t :: ts => run_steps P train (step P s t train).1 ts

/-! ## Concrete instances (used by the closed evaluation theorems) -/

/-- A fresh `DQN_Agent` state as models.py constructs it.  The network
parameter lists are irrelevant to the runs below and kept empty. -/
def freshBrain : Brain :=
  { weights := [], target := [], epsilon := 1, replay_buffer := [],
    buffer_capacity := 5000, batch_size := 32, train_steps := 0 }

/-- A freshly constructed two-edge junction controller as
`JunctionAgent.__init__` leaves it: green on the first (sorted) edge,
all timers and counters zero. -/
def twoEdgeInit : JState :=
  { tls_id := "J1"
    unique_edges := ["E0", "E1"]
    green_states := ["Grr", "rrG"]
    current_edge_idx := 0
    current_state_str := "Grr"
    is_yellow := false
    yellow_steps_left := 0
    last_switch_time := 0
    last_decision_time := 0
    last_green_times := [0, 0]
    last_observation := none
    step_counter := 0
    train_frequency := 10
    last_action_caused_switch := false
    brain := freshBrain }

/-- A learned-action selector that always selects the currently green
edge: exactly one candidate feature vector ends with the
is-currently-green flag `1`, and its index is the current edge index. -/
def stayPolicy : List (List ℚ) → List ℚ → Bool → Nat :=
  fun cands _ _ => cands.findIdx (fun f => f.getLast? == some 1)

/-- A simulator with no traffic: empty lane features, zero reward. -/
def quietEnv : ℚ → EnvObs :=
  fun _ => { ctx_feats := [], edge_feats := [[], []], reward := 0 }

/-- Collaborators for the max-green scenario run: the learned action
always stays on the current edge. -/
def stayParams : Params :=
  { policy := stayPolicy, trainBody := fun b => (b, 0), env := quietEnv }

/-- Simulation times `0, 1, …, 100`, one `step` call per second as the
main loop issues them. -/
def timesTo100 : List ℚ := (List.range 101).map (fun n => (n : ℚ))

/-- The state of the two-edge controller after the `step` calls at
`t = 0, 1, …, 100` with the always-stay learned action. -/
def c1Run : JState := run_steps stayParams false twoEdgeInit timesTo100

/-- A junction controller whose junction has no controlled edges
(`unique_edges` empty, as discovered for a signal with no incoming
lanes). -/
def noEdgesJ : JState :=
  { twoEdgeInit with unique_edges := [], green_states := [], last_green_times := [],
                     current_state_str := "" }

/-- A one-edge controller mid-episode: its edge was last green at
simulation time 50 and it has been running for a while. -/
def oneEdgeUsed : JState :=
  { tls_id := "J2"
    unique_edges := ["E7"]
    green_states := ["GG"]
    current_edge_idx := 0
    current_state_str := "GG"
    is_yellow := false
    yellow_steps_left := 0
    last_switch_time := 60
    last_decision_time := 64
    last_green_times := [50]
    last_observation := some ⟨[[1, 0]], [2], 0⟩
    step_counter := 64
    train_frequency := 10
    last_action_caused_switch := false
    brain := freshBrain }

/-- An arbitrary nontrivial `train_step` body (stands for one
backpropagation pass). -/
def exBody : Brain → Brain × ℚ := fun b => ({ b with epsilon := 0 }, 1)

/-- A replay transition carrying an identifying action index. -/
def tagT (n : Nat) : Transition := ⟨[], [], n, 0, [], [], false⟩

/-- A brain configured with replay capacity 2. -/
def capTwoBrain : Brain := { freshBrain with buffer_capacity := 2 }

/-- Three distinct transitions: capacity + 1 insertions for
`capTwoBrain`. -/
def threeT : List Transition := [tagT 0, tagT 1, tagT 2]

/-- A server holding one two-element parameter tensor. -/
def exServer : Server := { global_weights := [[0, 0]], round_count := 0 }

/-- A single client weight set matching `exServer`'s shape. -/
def exClient : List (List ℚ) := [[3, 4]]

/-- A server holding one single-element parameter tensor. -/
def exServer9 : Server := { global_weights := [[0]], round_count := 0 }

/-- Two client weight sets with values 1 and 3 at the only element. -/
def exClients9 : List (List (List ℚ)) := [[[1]], [[3]]]

/-- A controller whose brain holds a concrete two-key weight set. -/
def exJ : JState :=
  { twoEdgeInit with brain := { freshBrain with weights := [[1, 2], [3]] } }

/-- A global weight set with the same shape as `exJ`'s local set. -/
def exGlobal : List (List ℚ) := [[5, 6], [7]]

/-! ## Theorems -/

/-- C8: `aggregate` called with an empty client list returns the current
global weight set and leaves the server state unchanged: the stored
global weights are not modified and the round counter is not
incremented. -/
theorem aggregate_empty_noop (sv : Server) :
    aggregate sv [] = (sv.global_weights, sv) ∧
    (aggregate sv []).2.global_weights = sv.global_weights ∧
    (aggregate sv []).2.round_count = sv.round_count :=
  ⟨rfl, rfl, rfl⟩

/-- C7: whenever the replay buffer holds fewer entries than the batch
size, `train_step` returns `(unchanged state, 0.0)` without mutating the
live weights, the target weights, the exploration rate, or the
train-step counter (the abstracted backpropagation body is never
invoked). -/
theorem train_step_insufficient_noop (body : Brain → Brain × ℚ) (b : Brain)
    (h : b.replay_buffer.length < b.batch_size) :
    train_step body b = (b, 0) ∧
    (train_step body b).1.weights = b.weights ∧
    (train_step body b).1.target = b.target ∧
    (train_step body b).1.epsilon = b.epsilon ∧
    (train_step body b).1.train_steps = b.train_steps := by
  simp [train_step, h]

/-- Witness for C7: the fresh agent's empty buffer (0 < 32) makes
`train_step` a no-op even though the supplied body would zero the
exploration rate. -/
theorem train_step_insufficient_noop_witness :
    train_step exBody freshBrain = (freshBrain, 0) :=
  (train_step_insufficient_noop exBody freshBrain (by decide)).1

/-- C10: for a controller whose junction has no controlled edges,
`step` returns immediately: the state is unmutated and no simulator
command is issued (so the cyclic-next computation of the max-green
override, which divides by the number of edges, is never reached). -/
theorem step_no_edges_noop (P : Params) (s : JState) (t : ℚ) (train : Bool)
    (h : s.unique_edges = []) :
    step P s t train = (s, []) := by
  simp [step, h]

/-- Witness for C10: the concrete edge-less controller is untouched by a
`step` call at time 5. -/
theorem step_no_edges_noop_witness :
    step stayParams noEdgesJ 5 true = (noEdgesJ, []) :=
  step_no_edges_noop stayParams noEdgesJ 5 true rfl

/-- C2 counterexample: `reset` does NOT clear the per-edge
`last_green_times` dictionary.  For the concrete controller whose only
edge was last green at time 50, the time persists across `reset`
(clearing, as `__init__` does, would set it to 0). -/
theorem reset_counterexample :
    (reset oneEdgeUsed).1.last_green_times = [50] ∧ ((50 : ℚ) ≠ 0) := by
  with_unfolding_all decide

/-- C2 (amended): `reset` zeroes the current edge index, the yellow flag
and countdown, `last_switch_time`, `last_decision_time`, the pending
observation and the switch marker, and re-derives the current state
string from the first edge's green phase (when edges exist) — but the
per-edge `last_green_times` and the whole brain (live weights, target
weights, exploration rate, replay buffer) are left unchanged. -/
theorem reset_frame (s : JState) :
    (reset s).1.current_edge_idx = 0 ∧
    (reset s).1.is_yellow = false ∧
    (reset s).1.yellow_steps_left = 0 ∧
    (reset s).1.last_switch_time = 0 ∧
    (reset s).1.last_decision_time = 0 ∧
    (reset s).1.last_observation = none ∧
    (reset s).1.last_action_caused_switch = false ∧
    (reset s).1.current_state_str =
      (if s.unique_edges.isEmpty then s.current_state_str else s.green_states.getD 0 "") ∧
    (reset s).1.last_green_times = s.last_green_times ∧
    (reset s).1.brain = s.brain := by
  unfold reset
  by_cases h : s.unique_edges.isEmpty <;> simp [h]

/-- The starvation loop skips a prefix of indices that are not starved
or are currently green. -/
theorem find_starved_append (t : ℚ) (lg : List ℚ) (cur : Nat) (l1 l2 : List Nat)
    (h1 : ∀ j ∈ l1, ¬(120 < t - lg.getD j 0 ∧ j ≠ cur)) :
    find_starved t lg cur (l1 ++ l2) = find_starved t lg cur l2 := by
  induction l1 with
  | nil => rfl
  | cons a l ih =>
    rw [List.cons_append]
    have hstep : find_starved t lg cur (a :: (l ++ l2)) =
        if 120 < t - lg.getD a 0 ∧ a ≠ cur then some a
        else find_starved t lg cur (l ++ l2) := rfl
    rw [hstep, if_neg (h1 a (List.mem_cons_self a l))]
    exact ih (fun j hj => h1 j (List.mem_cons_of_mem a hj))

/-- The starvation loop breaks at the first eligible index. -/
theorem find_starved_cons_pos (t : ℚ) (lg : List ℚ) (cur : Nat) (i : Nat) (l : List Nat)
    (h : 120 < t - lg.getD i 0 ∧ i ≠ cur) :
    find_starved t lg cur (i :: l) = some i := by
  unfold find_starved
  rw [if_pos h]

/-- `List.range n` splits at any `i < n`. -/
theorem range_eq_append_cons (i n : Nat) (h : i < n) :
    ∃ l, List.range n = List.range i ++ i :: l := by
  obtain ⟨k, hk⟩ : ∃ k, n = i + (k + 1) := ⟨n - i - 1, by omega⟩
  subst hk
  refine ⟨(List.range k).map (fun j => i + (j + 1)), ?_⟩
  rw [List.range_add, List.range_succ_eq_map]
  simp [List.map_map, Function.comp_def, Nat.succ_eq_add_one]

/-- C3: at a decision point where edge `i` has not been green for more
than the 120 s starvation threshold and is not the currently green edge
— and every smaller index is not eligible — the resolved action equals
`i`, whatever the learned action was.  (The subsequent max-green
override cannot fire, because the resolved action differs from the
current index.) -/
theorem starvation_override_resolves (edges : List String) (last_greens : List ℚ)
    (cur : Nat) (last_switch t : ℚ) (learned : Nat) (i : Nat)
    (hi : i < edges.length)
    (hst : 120 < t - last_greens.getD i 0)
    (hne : i ≠ cur)
    (hmin : ∀ j < i, ¬(120 < t - last_greens.getD j 0 ∧ j ≠ cur)) :
    resolve_action edges last_greens cur last_switch t learned = i := by
  obtain ⟨l, hl⟩ := range_eq_append_cons i edges.length hi
  unfold resolve_action
  rw [hl, find_starved_append t last_greens cur _ _
        (fun j hj => hmin j (List.mem_range.mp hj)),
      find_starved_cons_pos t last_greens cur i l ⟨hst, hne⟩]
  simp only [Option.getD_some]
  rw [if_neg (fun hc => hne hc.2)]

/-- Witness for C3: with two edges, edge 1 last green at time 0 and
edge 0 currently green, a decision at t = 130 resolves to edge 1 even
though the learned action was 0. -/
theorem starvation_override_resolves_witness :
    resolve_action ["E0", "E1"] [0, 0] 0 120 130 0 = 1 :=
  starvation_override_resolves ["E0", "E1"] [0, 0] 0 120 130 0 1
    (by decide) (by norm_num) (by decide)
    (by
      intro j hj
      have hj0 : j = 0 := by omega
      subst hj0
      rintro ⟨-, hc⟩
      exact hc rfl)

set_option maxRecDepth 100000 in
/-- C1: the max-green forced switch does NOT happen.  In the scenario
the claim describes — a fresh two-edge controller, the learned action
always selecting the currently green edge, `step` called at
`t = 0, 1, …, 100` — the keep-current branch of `step` (junction.py
line 204) refreshes `last_switch_time` at every decision, so
`time_current_green` at a decision point never exceeds the 10 s minimum
green, and the `MAX_GREEN_TIME` guard (line 182) never fires.  The run
evaluates to: a decision occurred at t = 100 (`last_decision_time =
100`), its resolved action (recorded in the observation) was the current
edge 0 — not the next edge 1 the claim requires — and no switch was
initiated (still green on edge 0). -/
theorem max_green_scenario_keeps_current :
    c1Run.current_edge_idx = 0 ∧
    c1Run.is_yellow = false ∧
    c1Run.last_decision_time = 100 ∧
    c1Run.last_observation.map Obs.act = some 0 ∧
    c1Run.last_switch_time = 100 := by
  with_unfolding_all decide

/-- `store_transition` never changes the configured capacity. -/
theorem store_transition_capacity (b : Brain) (t : Transition) :
    (store_transition b t).buffer_capacity = b.buffer_capacity := by
  unfold store_transition
  split <;> rfl

/-- Folding `store_transition` from a buffer within capacity keeps
exactly the last `capacity` entries of the insertion stream. -/
theorem store_transition_fold (cap : Nat) (hcap : 1 ≤ cap) (ts : List Transition) :
    ∀ b : Brain, b.buffer_capacity = cap → b.replay_buffer.length ≤ cap →
      (ts.foldl store_transition b).replay_buffer =
        (b.replay_buffer ++ ts).drop (b.replay_buffer.length + ts.length - cap) := by
  induction ts with
  | nil =>
    intro b hc hlen
    have h0 : b.replay_buffer.length - cap = 0 := by omega
    simp [h0]
  | cons t ts ih =>
    intro b hc hlen
    rw [List.foldl_cons]
    by_cases hfull : cap ≤ b.replay_buffer.length
    · have hn : b.replay_buffer.length = cap := le_antisymm hlen hfull
      have hbuf : (store_transition b t).replay_buffer =
          b.replay_buffer.drop 1 ++ [t] := by
        simp [store_transition, hc, hfull]
      have hc2 : (store_transition b t).buffer_capacity = cap := by
        rw [store_transition_capacity, hc]
      have hlen2 : (store_transition b t).replay_buffer.length ≤ cap := by
        rw [hbuf]
        simp only [List.length_append, List.length_drop, List.length_cons,
          List.length_nil]
        omega
      rw [ih (store_transition b t) hc2 hlen2, hbuf]
      have hidx1 : (b.replay_buffer.drop 1 ++ [t]).length + ts.length - cap
          = ts.length := by
        simp only [List.length_append, List.length_drop, List.length_cons,
          List.length_nil]
        omega
      have hidx2 : b.replay_buffer.length + (t :: ts).length - cap = ts.length + 1 := by
        simp only [List.length_cons]
        omega
      rw [hidx1, hidx2]
      have h3 : (b.replay_buffer.drop 1 ++ [t]) ++ ts
          = (b.replay_buffer ++ t :: ts).drop 1 := by
        rw [List.drop_append_of_le_length (by omega)]
        simp
      rw [h3, List.drop_drop, Nat.add_comm]
    · have hbuf : (store_transition b t).replay_buffer = b.replay_buffer ++ [t] := by
        simp [store_transition, hc, hfull]
      have hc2 : (store_transition b t).buffer_capacity = cap := by
        rw [store_transition_capacity, hc]
      have hlen2 : (store_transition b t).replay_buffer.length ≤ cap := by
        rw [hbuf]
        simp only [List.length_append, List.length_cons, List.length_nil]
        omega
      rw [ih (store_transition b t) hc2 hlen2, hbuf]
      have hidx : (b.replay_buffer ++ [t]).length + ts.length - cap
          = b.replay_buffer.length + (t :: ts).length - cap := by
        simp only [List.length_append, List.length_cons, List.length_nil]
        omega
      rw [hidx]
      congr 1
      simp

/-- C5: starting from an empty replay buffer, any insertion stream
leaves the buffer within the configured capacity (and one
`store_transition` call preserves the bound); after exactly
`capacity + 1` insertions the buffer is precisely the stream without its
first element, so the first-inserted transition is absent (when not
re-inserted later) and the last-inserted transition is present. -/
theorem replay_buffer_fifo_bounded (b : Brain) (ts : List Transition)
    (hb : b.replay_buffer = []) (hcap : 1 ≤ b.buffer_capacity) :
    ((ts.foldl store_transition b).replay_buffer.length ≤ b.buffer_capacity) ∧
    (∀ (b2 : Brain) (t : Transition), b2.buffer_capacity = b.buffer_capacity →
        b2.replay_buffer.length ≤ b.buffer_capacity →
        (store_transition b2 t).replay_buffer.length ≤ b.buffer_capacity) ∧
    (∀ t0 tr, ts = t0 :: tr → ts.length = b.buffer_capacity + 1 →
        (ts.foldl store_transition b).replay_buffer = tr ∧
        (t0 ∉ tr → t0 ∉ (ts.foldl store_transition b).replay_buffer) ∧
        (∀ tl, ts.getLast? = some tl →
          tl ∈ (ts.foldl store_transition b).replay_buffer)) := by
  have hchar := store_transition_fold b.buffer_capacity hcap ts b rfl
    (by rw [hb]; simp)
  rw [hb] at hchar
  simp only [List.nil_append, List.length_nil, Nat.zero_add] at hchar
  refine ⟨?_, ?_, ?_⟩
  · rw [hchar, List.length_drop]
    omega
  · intro b2 t hc2 hlen2
    unfold store_transition
    split <;>
      simp only [List.length_append, List.length_drop, List.length_cons,
        List.length_nil] <;>
      omega
  · intro t0 tr hts hlents
    have htr : tr.length = b.buffer_capacity := by
      rw [hts] at hlents
      simp only [List.length_cons] at hlents
      omega
    have hdrop : ts.drop (ts.length - b.buffer_capacity) = tr := by
      have h1 : ts.length - b.buffer_capacity = 1 := by omega
      rw [h1, hts, List.drop_one, List.tail_cons]
    rw [hchar, hdrop]
    refine ⟨rfl, fun h => h, ?_⟩
    intro tl htl
    rw [hts] at htl
    cases tr with
    | nil =>
      simp only [List.length_nil] at htr
      omega
    | cons a l =>
      rw [List.getLast?_cons_cons] at htl
      exact List.mem_of_getLast?_eq_some htl

/-- Witness for C5: with capacity 2 and insertions tagged 0, 1, 2, the
first transition has been evicted and the last is present. -/
theorem replay_buffer_fifo_bounded_witness :
    tagT 0 ∉ (threeT.foldl store_transition capTwoBrain).replay_buffer ∧
    tagT 2 ∈ (threeT.foldl store_transition capTwoBrain).replay_buffer := by
  have h := (replay_buffer_fifo_bounded capTwoBrain threeT rfl (by decide)).2.2
    (tagT 0) [tagT 1, tagT 2] rfl (by decide)
  exact ⟨h.2.1 (by decide), h.2.2 (tagT 2) (by decide)⟩

/-- `getD` through `zipWith` at an index inside both lists. -/
theorem getD_zipWith {α β γ : Type} (f : α → β → γ) :
    ∀ (as : List α) (bs : List β) (k : Nat) (da : α) (db : β) (dc : γ),
      k < as.length → k < bs.length →
      (List.zipWith f as bs).getD k dc = f (as.getD k da) (bs.getD k db) := by
  intro as
  induction as with
  | nil =>
    intro bs k da db dc h1 h2
    simp at h1
  | cons a as ih =>
    intro bs k da db dc h1 h2
    cases bs with
    | nil => simp at h2
    | cons b bs =>
      cases k with
      | zero => rfl
      | succ k =>
        simp only [List.zipWith_cons_cons, List.getD_cons_succ]
        exact ih bs k da db dc (by simpa using h1) (by simpa using h2)

/-- `zipWith` that keeps its first argument is the identity on the first
list when the lengths agree. -/
theorem zipWith_fst {α β : Type} :
    ∀ (as : List α) (bs : List β), as.length = bs.length →
      List.zipWith (fun a _ => a) as bs = as := by
  intro as
  induction as with
  | nil => intro bs h; rfl
  | cons a l ih =>
    intro bs h
    cases bs with
    | nil => simp at h
    | cons b m =>
      simp only [List.zipWith_cons_cons, List.cons.injEq]
      refine ⟨by trivial, ih m (by simpa using h)⟩

/-- `zipWith` that keeps its second argument is the identity on the
second list when the lengths agree. -/
theorem zipWith_snd {α β : Type} :
    ∀ (as : List α) (bs : List β), as.length = bs.length →
      List.zipWith (fun _ b => b) as bs = bs := by
  intro as
  induction as with
  | nil =>
    intro bs h
    cases bs with
    | nil => rfl
    | cons b m => simp at h
  | cons a l ih =>
    intro bs h
    cases bs with
    | nil => simp at h
    | cons b m =>
      simp only [List.zipWith_cons_cons, List.cons.injEq]
      refine ⟨by trivial, ih m (by simpa using h)⟩

/-- At retention `alpha = 1` the blend returns the local weights. -/
theorem blend_alpha_one :
    ∀ (lw gw : List (List ℚ)), lw.length = gw.length →
      (∀ k, k < gw.length → (lw.getD k []).length = (gw.getD k []).length) →
      blend 1 lw gw = lw := by
  intro lw
  induction lw with
  | nil => intro gw _ _; rfl
  | cons lt lw ih =>
    intro gw hlen hshape
    cases gw with
    | nil => simp at hlen
    | cons gt gw =>
      simp only [blend, List.zipWith_cons_cons, List.cons.injEq]
      constructor
      · have hl : lt.length = gt.length := by simpa using hshape 0 (by simp)
        simpa using zipWith_fst lt gt hl
      · have := ih gw (by simpa using hlen)
          (fun k hk => by simpa using hshape (k + 1) (by simpa using hk))
        simpa [blend] using this

/-- At retention `alpha = 0` the blend returns the global weights. -/
theorem blend_alpha_zero :
    ∀ (lw gw : List (List ℚ)), lw.length = gw.length →
      (∀ k, k < gw.length → (lw.getD k []).length = (gw.getD k []).length) →
      blend 0 lw gw = gw := by
  intro lw
  induction lw with
  | nil =>
    intro gw hlen _
    cases gw with
    | nil => rfl
    | cons gt gw => simp at hlen
  | cons lt lw ih =>
    intro gw hlen hshape
    cases gw with
    | nil => simp at hlen
    | cons gt gw =>
      simp only [blend, List.zipWith_cons_cons, List.cons.injEq]
      constructor
      · have hl : lt.length = gt.length := by simpa using hshape 0 (by simp)
        simpa using zipWith_snd lt gt hl
      · have := ih gw (by simpa using hlen)
          (fun k hk => by simpa using hshape (k + 1) (by simpa using hk))
        simpa [blend] using this

/-- C6: `update_weights(global, alpha)` replaces each local parameter
elementwise with `alpha * local + (1 - alpha) * global`; in particular
`alpha = 1` leaves the local weights unchanged and `alpha = 0` makes the
local weights equal to the global weights (shapes assumed compatible, as
any mismatch raises `KeyError`/shape errors in torch). -/
theorem update_weights_blend (s : JState) (gw : List (List ℚ)) (alpha : ℚ)
    (hlen : s.brain.weights.length = gw.length)
    (hshape : ∀ k, k < gw.length →
      (s.brain.weights.getD k []).length = (gw.getD k []).length) :
    (∀ k j, k < gw.length → j < (gw.getD k []).length →
      (((update_weights s gw alpha).brain.weights.getD k []).getD j 0) =
        alpha * ((s.brain.weights.getD k []).getD j 0)
          + (1 - alpha) * ((gw.getD k []).getD j 0)) ∧
    (alpha = 1 → (update_weights s gw alpha).brain.weights = s.brain.weights) ∧
    (alpha = 0 → (update_weights s gw alpha).brain.weights = gw) := by
  refine ⟨?_, ?_, ?_⟩
  · intro k j hk hj
    have hk1 : k < s.brain.weights.length := by omega
    have hj1 : j < (s.brain.weights.getD k []).length := by
      rw [hshape k hk]
      exact hj
    show ((blend alpha s.brain.weights gw).getD k []).getD j 0 = _
    unfold blend
    rw [getD_zipWith _ s.brain.weights gw k [] [] [] hk1 hk,
      getD_zipWith _ _ _ j 0 0 0 hj1 hj]
  · intro h
    subst h
    show blend 1 s.brain.weights gw = s.brain.weights
    exact blend_alpha_one s.brain.weights gw hlen hshape
  · intro h
    subst h
    show blend 0 s.brain.weights gw = gw
    exact blend_alpha_zero s.brain.weights gw hlen hshape

/-- Witness for C6: concrete two-key weight sets blended with
`alpha = 1/2` satisfy the elementwise formula at key 0, element 0. -/
theorem update_weights_blend_witness :
    ((update_weights exJ exGlobal (1 / 2)).brain.weights.getD 0 []).getD 0 0 =
      1 / 2 * ((exJ.brain.weights.getD 0 []).getD 0 0)
        + (1 - 1 / 2) * ((exGlobal.getD 0 []).getD 0 0) :=
  (update_weights_blend exJ exGlobal (1 / 2) (by decide) (by decide)).1 0 0
    (by decide) (by decide)

/-- Reading every index of a list back with `getD` reproduces it. -/
theorem map_getD_range {α : Type} (l : List α) (d : α) :
    (List.range l.length).map (fun j => l.getD j d) = l := by
  induction l with
  | nil => rfl
  | cons a l ih =>
    rw [List.length_cons, List.range_succ_eq_map, List.map_cons, List.map_map]
    have hf : ((fun j => (a :: l).getD j d) ∘ Nat.succ) = (fun j => l.getD j d) := by
      funext j
      rfl
    rw [hf, ih]
    rfl

/-- The median of a single value is that value. -/
theorem lower_median_singleton (x : ℚ) : lower_median [x] = x := by
  with_unfolding_all rfl

/-- The outlier test never fires at distance zero. -/
theorem outlier_test_zero_dist (v : ℚ) : outlier_test 0 v = false := by
  have h : ¬(0 < (0 : ℚ) - 3 / 2 * (1 / 1000000)) := by norm_num
  unfold outlier_test
  rw [decide_eq_false h, Bool.false_and]

/-- A single client is never an outlier against itself: its distance to
the one-sample median is zero at every element, so its outlier ratio is
0 and it receives full weight. -/
theorem outlier_factor_singleton (thr : ℚ) (numel : Nat) (cw : List ℚ)
    (hthr : 0 ≤ thr) :
    outlier_factor thr numel [cw] cw = 1 := by
  unfold outlier_factor
  have hfilter : ((List.range numel).filter (fun j =>
      outlier_test (|cw.getD j 0 - lower_median ([cw].map (fun c => c.getD j 0))|)
        (varU ([cw].map (fun c => c.getD j 0))))) = [] := by
    rw [List.filter_eq_nil_iff]
    intro j _
    simp [lower_median_singleton, outlier_test_zero_dist]
  rw [hfilter]
  rw [if_neg]
  intro hc
  simp only [List.length_nil, Nat.cast_zero, zero_div] at hc
  exact absurd (lt_of_le_of_lt hthr hc) (lt_irrefl 0)

/-- `aggregate_key` on a one-element stack returns the client's tensor
unchanged: the single full-weight factor normalizes to 1. -/
theorem aggregate_key_singleton (thr : ℚ) (cw : List ℚ) (hthr : 0 ≤ thr) :
    aggregate_key thr [cw] = cw := by
  unfold aggregate_key
  simp only [List.headD_cons, List.map_cons, List.map_nil,
    outlier_factor_singleton thr cw.length cw hthr, List.sum_cons, List.sum_nil,
    add_zero, List.zipWith_cons_cons, List.zipWith_nil_right, one_div_one, one_mul]
  exact map_getD_range cw 0

/-- C4: aggregating a single client's weight set returns that client's
weights unchanged for every parameter tensor: the one-sample median
equals the client's value, no element is flagged as an outlier, the
client's factor normalizes to 1, and the weighted sum reproduces the
client's tensor.  (The client must hold the same parameter keys as the
server; anything else raises `KeyError` in the source.) -/
theorem aggregate_single_client (sv : Server) (w : List (List ℚ))
    (h : w.length = sv.global_weights.length) :
    (aggregate sv [w]).1 = w := by
  have hthr : 0 ≤ max ((1 : ℚ) / 10) (3 / 10 - (sv.round_count : ℚ) * (1 / 100)) :=
    le_trans (by norm_num) (le_max_left _ _)
  have hrw : ∀ k : Nat, aggregate_key (max ((1 : ℚ) / 10)
      (3 / 10 - (sv.round_count : ℚ) * (1 / 100))) [w.getD k []] = w.getD k [] :=
    fun k => aggregate_key_singleton _ _ hthr
  unfold aggregate
  simp only [List.isEmpty_cons, Bool.false_eq_true, if_false, List.map_cons,
    List.map_nil, hrw]
  rw [← h]
  exact map_getD_range w []

/-- Witness for C4: the concrete one-client aggregation returns the
client's tensor `[3, 4]` unchanged. -/
theorem aggregate_single_client_witness :
    (aggregate exServer [exClient]).1 = exClient :=
  aggregate_single_client exServer exClient (by decide)

/-- Dividing every term of a sum by the same constant divides the
sum. -/
theorem sum_map_div (l : List ℚ) (c : ℚ) :
    (l.map (fun f => f / c)).sum = l.sum / c := by
  induction l with
  | nil => simp
  | cons a l ih => simp [ih, div_add_div_same]

/-- `getD` at an in-range index of a map over `List.range`. -/
theorem getD_map_range {α : Type} (g : Nat → α) (n j : Nat) (d : α) (h : j < n) :
    ((List.range n).map g).getD j d = g j := by
  rw [List.getD_eq_getElem _ _ (by simpa using h)]
  simp

/-- Upper bound for a nonnegatively weighted sum of bounded values. -/
theorem zipWith_mul_sum_le (hi : ℚ) :
    ∀ (ws vs : List ℚ), ws.length = vs.length → (∀ w ∈ ws, 0 ≤ w) →
      (∀ v ∈ vs, v ≤ hi) →
      (List.zipWith (· * ·) ws vs).sum ≤ ws.sum * hi := by
  intro ws
  induction ws with
  | nil =>
    intro vs _ _ _
    simp
  | cons w ws ih =>
    intro vs hlen hw hv
    cases vs with
    | nil => simp at hlen
    | cons v vs =>
      simp only [List.zipWith_cons_cons, List.sum_cons]
      have h1 : w * v ≤ w * hi :=
        mul_le_mul_of_nonneg_left (hv v (by simp)) (hw w (by simp))
      have h2 := ih vs (by simpa using hlen)
        (fun x hx => hw x (List.mem_cons_of_mem w hx))
        (fun x hx => hv x (List.mem_cons_of_mem v hx))
      calc w * v + (List.zipWith (· * ·) ws vs).sum
          ≤ w * hi + ws.sum * hi := add_le_add h1 h2
        _ = (w + ws.sum) * hi := by ring

/-- Lower bound for a nonnegatively weighted sum of bounded values. -/
theorem zipWith_mul_sum_ge (lo : ℚ) :
    ∀ (ws vs : List ℚ), ws.length = vs.length → (∀ w ∈ ws, 0 ≤ w) →
      (∀ v ∈ vs, lo ≤ v) →
      ws.sum * lo ≤ (List.zipWith (· * ·) ws vs).sum := by
  intro ws
  induction ws with
  | nil =>
    intro vs _ _ _
    simp
  | cons w ws ih =>
    intro vs hlen hw hv
    cases vs with
    | nil => simp at hlen
    | cons v vs =>
      simp only [List.zipWith_cons_cons, List.sum_cons]
      have h1 : w * lo ≤ w * v :=
        mul_le_mul_of_nonneg_left (hv v (by simp)) (hw w (by simp))
      have h2 := ih vs (by simpa using hlen)
        (fun x hx => hw x (List.mem_cons_of_mem w hx))
        (fun x hx => hv x (List.mem_cons_of_mem v hx))
      calc (w + ws.sum) * lo = w * lo + ws.sum * lo := by ring
        _ ≤ w * v + (List.zipWith (· * ·) ws vs).sum := add_le_add h1 h2

/-- Elementwise, the weighted sum over client tensors is a plain
weighted product against the extracted column. -/
theorem zipWith_mul_getD (j : Nat) :
    ∀ (ws : List ℚ) (stack : List (List ℚ)),
      List.zipWith (fun f cw => f * cw.getD j 0) ws stack
        = List.zipWith (· * ·) ws (stack.map (fun cw => cw.getD j 0)) := by
  intro ws
  induction ws with
  | nil => intro stack; rfl
  | cons w ws ih =>
    intro stack
    cases stack with
    | nil => rfl
    | cons cw st =>
      simp only [List.zipWith_cons_cons, List.map_cons]
      rw [ih]

/-- Every aggregation factor is positive (it is 1/2 or 1). -/
theorem outlier_factor_pos (thr : ℚ) (numel : Nat) (stack : List (List ℚ))
    (cw : List ℚ) : 0 < outlier_factor thr numel stack cw := by
  unfold outlier_factor
  split <;> norm_num

/-- The merged value `aggregate_key` produces at each element is a
convex combination of the clients' values there: every factor is 1/2 or
1 and the factors are normalized to sum to one, so the merged element
stays between any bounds enclosing all client values. -/
theorem aggregate_key_bounds (thr lo hi : ℚ) (stack : List (List ℚ)) (j : Nat)
    (hne : stack ≠ [])
    (hj : j < (stack.headD []).length)
    (hlo : ∀ cw ∈ stack, lo ≤ cw.getD j 0)
    (hhi : ∀ cw ∈ stack, cw.getD j 0 ≤ hi) :
    lo ≤ (aggregate_key thr stack).getD j 0 ∧
      (aggregate_key thr stack).getD j 0 ≤ hi := by
  have hval : (aggregate_key thr stack).getD j 0 =
      (List.zipWith (· * ·)
        ((stack.map (outlier_factor thr (stack.headD []).length stack)).map
          (fun f => f /
            (stack.map (outlier_factor thr (stack.headD []).length stack)).sum))
        (stack.map (fun cw => cw.getD j 0))).sum := by
    simp only [aggregate_key]
    rw [getD_map_range _ _ j 0 hj, zipWith_mul_getD]
  rw [hval]
  have hfpos : ∀ f ∈ stack.map (outlier_factor thr (stack.headD []).length stack),
      0 < f := by
    intro f hf
    obtain ⟨cw, _, rfl⟩ := List.mem_map.mp hf
    exact outlier_factor_pos _ _ _ _
  have hfne : stack.map (outlier_factor thr (stack.headD []).length stack) ≠ [] := by
    simpa using hne
  have hT : 0 < (stack.map (outlier_factor thr (stack.headD []).length stack)).sum :=
    List.sum_pos _ hfpos hfne
  have hnf_nonneg : ∀ x ∈
      (stack.map (outlier_factor thr (stack.headD []).length stack)).map
        (fun f => f /
          (stack.map (outlier_factor thr (stack.headD []).length stack)).sum),
      0 ≤ x := by
    intro x hx
    obtain ⟨f, hf, rfl⟩ := List.mem_map.mp hx
    exact div_nonneg (le_of_lt (hfpos f hf)) (le_of_lt hT)
  have hnf_sum :
      ((stack.map (outlier_factor thr (stack.headD []).length stack)).map
        (fun f => f /
          (stack.map (outlier_factor thr (stack.headD []).length stack)).sum)).sum
        = 1 := by
    rw [sum_map_div]
    exact div_self (ne_of_gt hT)
  have hlen :
      ((stack.map (outlier_factor thr (stack.headD []).length stack)).map
        (fun f => f /
          (stack.map (outlier_factor thr (stack.headD []).length stack)).sum)).length
      = (stack.map (fun cw => cw.getD j 0)).length := by
    simp
  have hv_lo : ∀ v ∈ stack.map (fun cw => cw.getD j 0), lo ≤ v := by
    intro v hv
    obtain ⟨cw, hcw, rfl⟩ := List.mem_map.mp hv
    exact hlo cw hcw
  have hv_hi : ∀ v ∈ stack.map (fun cw => cw.getD j 0), v ≤ hi := by
    intro v hv
    obtain ⟨cw, hcw, rfl⟩ := List.mem_map.mp hv
    exact hhi cw hcw
  constructor
  · have h1 := zipWith_mul_sum_ge lo _ _ hlen hnf_nonneg hv_lo
    rwa [hnf_sum, one_mul] at h1
  · have h1 := zipWith_mul_sum_le hi _ _ hlen hnf_nonneg hv_hi
    rwa [hnf_sum, one_mul] at h1

/-- C9: for every non-empty client list, the merged value `aggregate`
produces at each tensor element is a convex combination of the clients'
values there (each factor is 1.0 or 0.5, normalized to sum to one), so
the merged value always lies between any bounds enclosing the clients'
values at that element — no client, even a flagged outlier, can push the
merged value outside the clients' range. -/
theorem aggregate_convex_bounds (sv : Server) (clients : List (List (List ℚ)))
    (k j : Nat) (lo hi : ℚ)
    (hne : clients ≠ [])
    (hk : k < sv.global_weights.length)
    (hj : j < ((clients.headD []).getD k []).length)
    (hlo : ∀ c ∈ clients, lo ≤ (c.getD k []).getD j 0)
    (hhi : ∀ c ∈ clients, (c.getD k []).getD j 0 ≤ hi) :
    lo ≤ ((aggregate sv clients).1.getD k []).getD j 0 ∧
      ((aggregate sv clients).1.getD k []).getD j 0 ≤ hi := by
  obtain ⟨c0, cs, rfl⟩ := List.exists_cons_of_ne_nil hne
  have hres : (aggregate sv (c0 :: cs)).1.getD k []
      = aggregate_key
          (max ((1 : ℚ) / 10) (3 / 10 - (sv.round_count : ℚ) * (1 / 100)))
          ((c0 :: cs).map (fun c => c.getD k [])) := by
    unfold aggregate
    simp only [List.isEmpty_cons, Bool.false_eq_true, if_false]
    exact getD_map_range _ _ k [] hk
  rw [hres]
  apply aggregate_key_bounds
  · simp
  · simpa using hj
  · intro cw hcw
    obtain ⟨c, hc, rfl⟩ := List.mem_map.mp hcw
    exact hlo c hc
  · intro cw hcw
    obtain ⟨c, hc, rfl⟩ := List.mem_map.mp hcw
    exact hhi c hc

/-- Witness for C9: merging clients with values 1 and 3 at the only
element yields a value between 1 and 3. -/
theorem aggregate_convex_bounds_witness :
    1 ≤ ((aggregate exServer9 exClients9).1.getD 0 []).getD 0 0 ∧
      ((aggregate exServer9 exClients9).1.getD 0 []).getD 0 0 ≤ 3 :=
  aggregate_convex_bounds exServer9 exClients9 0 0 1 3 (by decide) (by decide)
    (by decide) (by with_unfolding_all decide) (by with_unfolding_all decide)

end Vegha
